import Mathlib

/-!
Verification development for the PDF-content extraction engine
(`hedorah/pdf_processor.py`).  The Python module is shallowly embedded:

* Python `str` values are `String` / `List Char`; offsets are `Nat`.
* Python `re` patterns are embedded by a small backtracking matcher over a
  pattern AST (`RE`).  Each pattern literal of the source is translated
  node-by-node into an `RE` value.  The matcher enumerates candidate match
  ends in the backtracking priority order of Python's engine, so `head?`
  of the enumeration is exactly the match Python produces at a position.
* Python float division in `_find_page_number` is modelled by exact
  rational arithmetic over `ℚ`.
* File-system side effects of `_extract_figures` (directory creation,
  image writes) are modelled by an explicit log of performed operations.
* `doc.extract_image` failures (the `try/except` in `_extract_figures`)
  are modelled by an `ok` flag on the input image record.
-/

namespace Hedorah

/-- Python's `str.strip()` / `\s` whitespace set (ASCII part; all texts
considered here are ASCII). -/
def pyIsSpace (c : Char) : Bool :=
  c == ' ' || c == '\t' || c == '\n' || c == '\r' || c == '\x0b' || c == '\x0c'

/-- Python slice `text[a:b]` for `0 ≤ a ≤ b` (clamped at the end of the
list, as in Python). -/
def pySlice (cs : List Char) (a b : Nat) : List Char :=
  (cs.drop a).take (b - a)

/-- Python `str.strip()`: remove leading and trailing whitespace. -/
def pyStrip (cs : List Char) : List Char :=
  ((cs.dropWhile pyIsSpace).reverse.dropWhile pyIsSpace).reverse

/-- Pattern AST.  Each constructor corresponds to a construct used by the
regex literals of `pdf_processor.py`.  Repetition (`starG`/`starL`/`plus`)
only ever occurs over single-character classes in those patterns, so it is
restricted to character predicates. -/
inductive RE where
  | eps : RE
  | ch (c : Char) : RE
  | chCI (c : Char) : RE
  | cls (p : Char → Bool) : RE
  | cat (r s : RE) : RE
  | alt (r s : RE) : RE
  | starG (p : Char → Bool) : RE
  | starL (p : Char → Bool) : RE
  | plus (p : Char → Bool) : RE
  | opt (r : RE) : RE
  | grp (r : RE) : RE
  | dollar : RE

/-- Combine capture-group results of two sequenced sub-matches (each source
pattern has at most one capture group, so at most one side is `some`). -/
def mergeGroup (g1 g2 : Option (Nat × Nat)) : Option (Nat × Nat) :=
  match g1 with
  | some x => some x
  | none => g2

/-- All ways `r` can match `cs` starting at offset `i`, as
`(end offset, capture-group span)` pairs, listed in the backtracking
priority order of Python's `re` engine (greedy prefers longer first, lazy
prefers shorter first, alternation prefers the left branch).  The
engine-preferred match at `i` is the head of this list. -/
def matchAll : RE → List Char → Nat → List (Nat × Option (Nat × Nat))
  | .eps, _, i => [(i, none)]
  | .ch c, cs, i =>
    match cs[i]? with
    | some d => if d = c then [(i + 1, none)] else []
    | none => []
  | .chCI c, cs, i =>
    match cs[i]? with
    | some d => if d.toLower = c then [(i + 1, none)] else []
    | none => []
  | .cls p, cs, i =>
    match cs[i]? with
    | some d => if p d then [(i + 1, none)] else []
    | none => []
  | .cat r s, cs, i =>
    (matchAll r cs i).flatMap fun eg =>
      (matchAll s cs eg.1).map fun eg2 => (eg2.1, mergeGroup eg.2 eg2.2)
  | .alt r s, cs, i => matchAll r cs i ++ matchAll s cs i
  | .starG p, cs, i =>
    let k := ((cs.drop i).takeWhile p).length
    (List.range (k + 1)).map fun j => (i + (k - j), none)
  | .starL p, cs, i =>
    let k := ((cs.drop i).takeWhile p).length
    (List.range (k + 1)).map fun j => (i + j, none)
  | .plus p, cs, i =>
    let k := ((cs.drop i).takeWhile p).length
    (List.range k).map fun j => (i + (k - j), none)
  | .opt r, cs, i => matchAll r cs i ++ [(i, none)]
  | .grp r, cs, i => (matchAll r cs i).map fun eg => (eg.1, some (i, eg.1))
  | .dollar, cs, i =>
    if i = cs.length ∨ (i + 1 = cs.length ∧ cs[i]? = some '\n') then [(i, none)]
    else []

/-- The match Python's engine produces for `r` anchored at offset `i`
(`re.match` semantics at that offset): the priority-first outcome. -/
def matchAt (r : RE) (cs : List Char) (i : Nat) : Option (Nat × Option (Nat × Nat)) :=
  (matchAll r cs i).head?

/-- Worker for `finditer`: scan offsets left to right, at each offset take
the engine-preferred match, and resume after the match end (Python
`re.finditer` semantics).  `fuel` bounds the scan; `cs.length + 2` steps
always suffice because the scan offset strictly increases. -/
def finditerAux (r : RE) (cs : List Char) : Nat → Nat → List (Nat × Nat × Option (Nat × Nat))
  | 0, _ => []
  | fuel + 1, i =>
    if i > cs.length then []
    else
      match matchAt r cs i with
      | some (e, g) => (i, e, g) :: finditerAux r cs fuel (if e = i then i + 1 else e)
      | none => finditerAux r cs fuel (i + 1)

/-- Python `re.finditer(pattern, text)`: the non-overlapping matches as
`(start, end, capture-group span)` triples, in order of appearance. -/
def finditer (r : RE) (cs : List Char) : List (Nat × Nat × Option (Nat × Nat)) :=
  finditerAux r cs (cs.length + 2) 0

/-- Text of a capture group: the slice of the subject at the recorded
span (`""` when the group did not participate). -/
def groupSlice (cs : List Char) (g : Option (Nat × Nat)) : List Char :=
  match g with
  | some ab => pySlice cs ab.1 ab.2
  | none => []

/-- Sequence a list of pattern pieces. -/
def seqRE (l : List RE) : RE := l.foldr RE.cat RE.eps

/-- Case-sensitive string literal pattern. -/
def litRE (s : String) : RE := seqRE (s.data.map RE.ch)

/-- Case-insensitive string literal pattern (`re.IGNORECASE`); the stored
characters are lowercase and subject characters are lowercased before
comparison. -/
def ciLitRE (s : String) : RE := seqRE (s.data.map fun c => RE.chCI c.toLower)

/-! ## Position→page mapping and context windows -/

/-- Model of `_find_page_number(doc, position, full_text)`:
`avg_chars_per_page = len(full_text) / len(doc)`;
`page = int(position / avg_chars_per_page) + 1`; `min(page, len(doc))`.
Python float division is modelled by exact division in `ℚ` (`int(...)` on a
nonnegative value is the floor).  Python raises `ZeroDivisionError` when
`pageCount = 0` or `totalLen = 0`; in this model those division-by-zero
cases follow Lean's `x / 0 = 0` convention, and every theorem below that
relies on this function restricts to the regime where Python does not
raise. -/
def find_page_number (pageCount totalLen position : Nat) : Nat :=
  let avg : ℚ := (totalLen : ℚ) / (pageCount : ℚ)
  let page : Nat := (⌊(position : ℚ) / avg⌋).toNat + 1
  min page pageCount

/-- Model of `_get_context(text, start, end, window=100)`:
`text[max(0, start-window) : min(len(text), end+window)].strip()` (the
`max`/`min` clamping is what Nat subtraction and `pySlice` do). -/
def get_context (cs : List Char) (s e : Nat) : String :=
  String.mk (pyStrip (pySlice cs (s - 100) (min cs.length (e + 100))))

/-! ## SectionSegmenter (`_extract_sections`) -/

/-- The heading words of `section_patterns`, in source order; the `Bool`
records the optional plural `s` of `Experiments?`. -/
def SECTION_WORDS : List (String × Bool) :=
  [("Abstract", false), ("Introduction", false), ("Related Work", false),
   ("Background", false), ("Methodology", false), ("Methods", false),
   ("Experiment", true), ("Results", false), ("Discussion", false),
   ("Conclusion", false), ("References", false)]

/-- One heading pattern `\n\s*(\d+\.?\s+)?WORD\s*\n` (with `re.IGNORECASE`;
the numeral group is never read, so it is embedded without capture). -/
def mkHeadingRE (word : String) (optS : Bool) : RE :=
  seqRE [RE.ch '\n', RE.starG pyIsSpace,
         RE.opt (seqRE [RE.plus Char.isDigit, RE.opt (RE.ch '.'), RE.plus pyIsSpace]),
         ciLitRE word,
         (if optS then RE.opt (RE.chCI 's') else RE.eps),
         RE.starG pyIsSpace, RE.ch '\n']

/-- The anchored substitution pattern `^\d+\.?\s*` used to clean section
names. -/
def leadingNumRE : RE :=
  seqRE [RE.plus Char.isDigit, RE.opt (RE.ch '.'), RE.starG pyIsSpace]

/-- Model of the substitution with `leadingNumRE` anchored at the start: drop the anchored match, if any. -/
def subLeadingNum (cs : List Char) : List Char :=
  match matchAt leadingNumRE cs 0 with
  | some eg => cs.drop eg.1
  | none => cs

/-- Normalized section name of a heading match:
`match.group(0).strip()` followed by the leading-numeral substitution. -/
def sectionName (cs : List Char) (s e : Nat) : String :=
  String.mk (subLeadingNum (pyStrip (pySlice cs s e)))

/-- All `(match.start(), section_name)` pairs, pattern by pattern in source
order (the two nested `for` loops of `_extract_sections`). -/
def collectSectionMatches (text : String) : List (Nat × String) :=
  SECTION_WORDS.flatMap fun ws =>
    (finditer (mkHeadingRE ws.1 ws.2) text.data).map fun m =>
      (m.1, sectionName text.data m.1 m.2.1)

/-- Stable ascending insertion by start offset: a later element is placed
after every earlier element with a smaller-or-equal key.  This models
`section_matches.sort(key=lambda x: x[0])` (Python's sort is stable). -/
def insertByStart (x : Nat × String) : List (Nat × String) → List (Nat × String)
  | [] => [x]
  | y :: ys => if y.1 ≤ x.1 then y :: insertByStart x ys else x :: y :: ys

/-- Stable sort by start offset (model of Python `list.sort(key=...)`). -/
def sortByStart : List (Nat × String) → List (Nat × String)
  | [] => []
  | x :: xs => insertByStart x (sortByStart xs)

/-- The sorted `(start, name)` match list of `_extract_sections`. -/
def section_matches (text : String) : List (Nat × String) :=
  sortByStart (collectSectionMatches text)

/-- Span stored for the `i`-th sorted match:
`text[start_i:start_{i+1}].strip()`, or `text[start_i:].strip()` for the
last match. -/
def sectionSpanAt (text : String) (i : Nat) : String :=
  let ms := section_matches text
  match ms[i]? with
  | none => ""
  | some m =>
    match ms[i + 1]? with
    | some m2 => String.mk (pyStrip (pySlice text.data m.1 m2.1))
    | none => String.mk (pyStrip (text.data.drop m.1))

/-- The `(name, span)` pairs inserted into the section dict, in loop
order. -/
def sectionPairs (text : String) : List (String × String) :=
  (List.range (section_matches text).length).map fun i =>
    (((section_matches text)[i]?).elim "" Prod.snd, sectionSpanAt text i)

/-- Python dict assignment `d[k] = v`: replace the value at an existing
key in place, else append the new binding (insertion order preserved). -/
def dictInsert (l : List (String × String)) (kv : String × String) : List (String × String) :=
  match l with
  | [] => [kv]
  | p :: ps => if p.1 = kv.1 then kv :: ps else p :: dictInsert ps kv

/-- Python dict lookup `d[k]` (each key occurs at most once after
`dictInsert`, so first-match lookup is dict lookup). -/
def dictLookup (l : List (String × String)) (k : String) : Option String :=
  match l with
  | [] => none
  | p :: ps => if p.1 = k then some p.2 else dictLookup ps k

/-- Model of `_extract_sections(text)`: find and sort the heading matches, then
build the section dict span by span. -/
def extract_sections (text : String) : List (String × String) :=
  (sectionPairs text).foldl dictInsert []

/-! ## EquationExtractor (`_extract_equations`) -/

structure Equation where
  latex : String
  context : String
  page : Nat
  deriving DecidableEq, Repr

/-- Display pattern `\$\$(.*?)\$\$` with `re.DOTALL` (`.` matches any
character, including newline). -/
def displayRE : RE :=
  seqRE [RE.ch '$', RE.ch '$', RE.grp (RE.starL fun _ => true), RE.ch '$', RE.ch '$']

/-- Inline pattern `\$(.*?)\$` (no `DOTALL`: `.` matches any character
except newline). -/
def inlineRE : RE :=
  seqRE [RE.ch '$', RE.grp (RE.starL fun c => !(c == '\n')), RE.ch '$']

/-- The currency filter `re.match(r'^\d+(?:\.\d+)?$', latex)`; `$` is
Python's end anchor (end of string, or just before a trailing newline). -/
def decimalRE : RE :=
  seqRE [RE.plus Char.isDigit,
         RE.opt (seqRE [RE.ch '.', RE.plus Char.isDigit]),
         RE.dollar]

/-- Equation record built from one match (display and inline passes share
this shape). -/
def mkEquation (pageCount : Nat) (cs : List Char) (m : Nat × Nat × Option (Nat × Nat)) : Equation :=
  { latex := String.mk (pyStrip (groupSlice cs m.2.2)),
    context := get_context cs m.1 m.2.1,
    page := find_page_number pageCount cs.length m.1 }

/-- Model of `_extract_equations(text, doc)`: the display pass followed by the
inline pass; an inline candidate is dropped when its stripped content
matches the decimal pattern. -/
def extract_equations (pageCount : Nat) (text : String) : List Equation :=
  let cs := text.data
  ((finditer displayRE cs).map (mkEquation pageCount cs)) ++
  ((finditer inlineRE cs).filterMap fun m =>
    let latex := pyStrip (groupSlice cs m.2.2)
    if (matchAt decimalRE latex 0).isSome then none
    else some (mkEquation pageCount cs m))

/-! ## CitationExtractor (`_extract_citations`) -/

structure Citation where
  text : String
  context : String
  page : Nat
  deriving DecidableEq, Repr

/-- Author-year pattern `\[([A-Z][a-z]+(?:\s+et\s+al\.?)?,\s*\d{4})\]`. -/
def authorYearRE : RE :=
  seqRE [RE.ch '[',
         RE.grp (seqRE
           [RE.cls Char.isUpper, RE.plus Char.isLower,
            RE.opt (seqRE [RE.plus pyIsSpace, RE.ch 'e', RE.ch 't',
                           RE.plus pyIsSpace, RE.ch 'a', RE.ch 'l',
                           RE.opt (RE.ch '.')]),
            RE.ch ',', RE.starG pyIsSpace,
            RE.cls Char.isDigit, RE.cls Char.isDigit,
            RE.cls Char.isDigit, RE.cls Char.isDigit]),
         RE.ch ']']

/-- Numeric pattern `\[(\d+)\]`. -/
def numericRE : RE :=
  seqRE [RE.ch '[', RE.grp (RE.plus Char.isDigit), RE.ch ']']

/-- Model of `_extract_citations(text, doc)`: the author-year pass (citation text is
the capture group, i.e. without brackets) followed by the numeric pass
(citation text is the capture group re-wrapped in brackets). -/
def extract_citations (pageCount : Nat) (text : String) : List Citation :=
  let cs := text.data
  ((finditer authorYearRE cs).map fun m =>
    { text := String.mk (groupSlice cs m.2.2),
      context := get_context cs m.1 m.2.1,
      page := find_page_number pageCount cs.length m.1 }) ++
  ((finditer numericRE cs).map fun m =>
    { text := "[" ++ String.mk (groupSlice cs m.2.2) ++ "]",
      context := get_context cs m.1 m.2.1,
      page := find_page_number pageCount cs.length m.1 })

/-! ## ImageCandidateExtractor / FigureSelector (`_extract_figures`) -/

/-- An embedded image of a page, as surfaced by
`page.get_images()` + `doc.extract_image(xref)`: raw bytes, container
format, pixel dimensions.  `ok = false` models the per-image extraction
failure that the source's `try/except` skips (missing `width`/`height`
keys are modelled by the `0` default of `base_image.get`). -/
structure RawImage where
  ok : Bool
  bytes : List Nat
  ext : String
  width : Nat
  height : Nat
  deriving DecidableEq, Repr

/-- One page of the document: its text and its embedded images. -/
structure Page where
  text : String
  images : List RawImage
  deriving DecidableEq, Repr

/-- One entry of the `candidates` list (the dict literal of the source). -/
structure Candidate where
  image_bytes : List Nat
  image_ext : String
  width : Nat
  height : Nat
  caption : String
  page : Nat
  priority : Nat
  deriving DecidableEq, Repr

def MIN_IMAGE_WIDTH : Nat := 200
def MIN_IMAGE_HEIGHT : Nat := 200

/-- Caption pattern
`(?:Figure|Fig\.?)\s*{fig_num}[:\s]+(.*?)(?:\n\n|\n(?:Figure|Fig\.?)\s*\d+)`
with `re.IGNORECASE | re.DOTALL`. -/
def figKeywordRE : RE :=
  RE.alt (ciLitRE "figure") (seqRE [ciLitRE "fig", RE.opt (RE.ch '.')])

def captionRE (figNum : Nat) : RE :=
  seqRE [figKeywordRE, RE.starG pyIsSpace, litRE (toString figNum),
         RE.plus (fun c => c == ':' || pyIsSpace c),
         RE.grp (RE.starL fun _ => true),
         RE.alt (seqRE [RE.ch '\n', RE.ch '\n'])
                (seqRE [RE.ch '\n', figKeywordRE, RE.starG pyIsSpace,
                        RE.plus Char.isDigit])]

/-- Model of `_find_figure_caption(page_text, fig_num)`: first match of the caption
pattern (`re.search`), capture group stripped; `""` when there is none. -/
def find_figure_caption (pageText : String) (figNum : Nat) : String :=
  match (finditer (captionRE figNum) pageText.data).head? with
  | some m => String.mk (pyStrip (groupSlice pageText.data m.2.2))
  | none => ""

/-- Body of the inner loop of `_extract_figures` for one image:
skip on extraction failure (`try/except`), skip below the minimum
dimensions, otherwise build the candidate dict with its caption and
priority score. -/
def imageCandidate (pageNum : Nat) (pageText : String) (imgIndex : Nat)
    (img : RawImage) : Option Candidate :=
  if img.ok = false then none
  else if img.width < MIN_IMAGE_WIDTH ∨ img.height < MIN_IMAGE_HEIGHT then none
  else
    let caption := find_figure_caption pageText (imgIndex + 1)
    let area := img.width * img.height
    let has_caption : Nat := if caption ≠ "" then 1 else 0
    some { image_bytes := img.bytes, image_ext := img.ext,
           width := img.width, height := img.height,
           caption := caption, page := pageNum,
           priority := area + has_caption * 500000 }

/-- Inner loop over `enumerate(image_list)` of one page. -/
def pageCandidates (pageNum : Nat) (pageText : String) (imgIndex : Nat) :
    List RawImage → List Candidate
  | [] => []
  | img :: rest =>
    ((imageCandidate pageNum pageText imgIndex img).elim [] fun c => [c]) ++
    pageCandidates pageNum pageText (imgIndex + 1) rest

/-- Outer loop over `enumerate(doc, start=1)`. -/
def collectCandidatesFrom (pageNum : Nat) : List Page → List Candidate
  | [] => []
  | pg :: rest =>
    pageCandidates pageNum pg.text 0 pg.images ++ collectCandidatesFrom (pageNum + 1) rest

/-- All figure candidates of the document, in encounter order. -/
def collectCandidates (pages : List Page) : List Candidate :=
  collectCandidatesFrom 1 pages

/-- Stable descending insertion by priority: a later element is placed
after every earlier element with a strictly greater priority and before
earlier elements of equal priority only, modelling
`candidates.sort(key=lambda x: x["priority"], reverse=True)` (Python's
sort is stable; with `reverse=True` equal elements keep encounter
order). -/
def insertByPriorityDesc (x : Candidate) : List Candidate → List Candidate
  | [] => [x]
  | y :: ys =>
    if x.priority < y.priority then y :: insertByPriorityDesc x ys
    else x :: y :: ys

/-- Stable descending sort by priority score. -/
def sortByPriorityDesc : List Candidate → List Candidate
  | [] => []
  | x :: xs => insertByPriorityDesc x (sortByPriorityDesc xs)

/-- A selected figure (the `Figure` dataclass; `description` is filled by
an external collaborator, never by this engine). -/
structure Figure where
  number : Nat
  caption : String
  image_path : String
  page : Nat
  width : Nat
  height : Nat
  description : String
  deriving DecidableEq, Repr

/-- Path of the saved image number i with extension ext under the output directory, as a plain string. -/
def figurePath (outputDir : String) (i : Nat) (ext : String) : String :=
  outputDir ++ "/figure_" ++ toString i ++ "." ++ ext

/-- The save loop `for i, candidate in enumerate(selected, start=1)`:
builds the `Figure` records and returns, alongside, the
`(path, bytes)` writes performed on disk, in order. -/
def saveFiguresFrom (outputDir : String) (i : Nat) :
    List Candidate → List Figure × List (String × List Nat)
  | [] => ([], [])
  | c :: rest =>
    let image_path := figurePath outputDir i c.image_ext
    let r := saveFiguresFrom outputDir (i + 1) rest
    ({ number := i, caption := c.caption, image_path := image_path,
       page := c.page, width := c.width, height := c.height,
       description := "" } :: r.1,
     (image_path, c.image_bytes) :: r.2)

/-- File-system side effects performed by the engine. -/
structure FSLog where
  dirsCreated : List String
  filesWritten : List (String × List Nat)
  deriving DecidableEq, Repr

/-- Model of `_extract_figures(doc, output_dir)`: create the output directory,
collect candidates, sort by priority descending (stable), keep the top
`max_figures`, and save them with dense numbering from 1. -/
def extract_figures (max_figures : Nat) (output_dir : String) (pages : List Page) :
    List Figure × FSLog :=
  let candidates := collectCandidates pages
  let selected := (sortByPriorityDesc candidates).take max_figures
  let saved := saveFiguresFrom output_dir 1 selected
  (saved.1, { dirsCreated := [output_dir], filesWritten := saved.2 })

/-! ## MetadataExtractor and ContentAssembler (`_extract_metadata`,
`process`) -/

/-- The container metadata map (`doc.metadata`); `.get(key, '')` defaults
make absent entries indistinguishable from empty strings, which is exactly
how the source reads them. -/
structure DocMetadata where
  title : String
  author : String
  deriving DecidableEq, Repr

/-- The parsed document handed to the engine by `pymupdf.open`. -/
structure Document where
  pages : List Page
  meta : DocMetadata
  deriving DecidableEq, Repr

/-- Model of `_extract_text(doc)`: join the page texts with a newline separator. -/
def extract_text (doc : Document) : String :=
  String.intercalate "\n" (doc.pages.map Page.text)

/-- Title part of `_extract_metadata`: metadata title if non-empty, else
the first of the first ten lines of page one whose stripped length exceeds
10 (stripped), else `''`.  `doc[0]` on a zero-page document raises
`IndexError`, modelled by the `.error` branch. -/
def extract_title (doc : Document) : Except String String :=
  if doc.meta.title ≠ "" then .ok doc.meta.title
  else
    match doc.pages with
    | [] => .error "IndexError"
    | pg :: _ =>
      match ((pg.text.splitOn "\n").take 10).find?
          (fun l => 10 < (pyStrip l.data).length) with
      | some l => .ok (String.mk (pyStrip l.data))
      | none => .ok ""

/-- Authors part of `_extract_metadata`: split the metadata author field
on commas and strip, empty when the field is empty. -/
def extract_authors (doc : Document) : List String :=
  if doc.meta.author ≠ "" then
    (doc.meta.author.splitOn ",").map fun a => String.mk (pyStrip a.data)
  else []

/-- Abstract pattern
`Abstract\s*\n\s*(.*?)\n\s*(?:\d+\.?\s+)?(?:Introduction|Keywords)` with
`re.IGNORECASE | re.DOTALL`. -/
def abstractRE : RE :=
  seqRE [ciLitRE "abstract", RE.starG pyIsSpace, RE.ch '\n', RE.starG pyIsSpace,
         RE.grp (RE.starL fun _ => true),
         RE.ch '\n', RE.starG pyIsSpace,
         RE.opt (seqRE [RE.plus Char.isDigit, RE.opt (RE.ch '.'), RE.plus pyIsSpace]),
         RE.alt (ciLitRE "introduction") (ciLitRE "keywords")]

/-- Abstract part of `_extract_metadata`: first match (`re.search`) of the
abstract pattern, capture group stripped, else `''`. -/
def extract_abstract (text : String) : String :=
  match (finditer abstractRE text.data).head? with
  | some m => String.mk (pyStrip (groupSlice text.data m.2.2))
  | none => ""

/-- The constructor flags of `PDFProcessor`. -/
structure Config where
  extract_figures : Bool
  extract_equations : Bool
  extract_citations : Bool
  max_figures : Nat
  deriving DecidableEq, Repr

/-- The `PDFContent` dataclass (the `metadata` dict is represented by its
`page_count` entry; `pdf_metadata` is the caller-supplied map, carried
through unchanged and irrelevant to every claim). -/
structure PDFContent where
  title : String
  authors : List String
  abstract : String
  full_text : String
  sections : List (String × String)
  figures : List Figure
  equations : List Equation
  citations : List Citation
  page_count : Nat
  deriving DecidableEq, Repr

/-- Model of `process(pdf_path, output_dir)`: extract text and sections, metadata,
then conditionally figures (`if self.extract_figures and output_dir:`),
equations and citations.  The returned `FSLog` records the side effects
performed; the `Except` layer carries the one internal failure mode
(`IndexError` of the title fallback on a zero-page document). -/
def process (cfg : Config) (output_dir : Option String) (doc : Document) :
    Except String (PDFContent × FSLog) :=
  let full_text := extract_text doc
  let sections := extract_sections full_text
  match extract_title doc with
  | .error e => .error e
  | .ok title =>
    let authors := extract_authors doc
    let abstract := extract_abstract full_text
    let pageCount := doc.pages.length
    let figs :=
      match output_dir with
      | some od =>
        if cfg.extract_figures then extract_figures cfg.max_figures od doc.pages
        else ([], { dirsCreated := [], filesWritten := [] })
      | none => ([], { dirsCreated := [], filesWritten := [] })
    let equations := if cfg.extract_equations then extract_equations pageCount full_text else []
    let citations := if cfg.extract_citations then extract_citations pageCount full_text else []
    .ok ({ title := title, authors := authors, abstract := abstract,
           full_text := full_text, sections := sections, figures := figs.1,
           equations := equations, citations := citations,
           page_count := pageCount }, figs.2)

/-! ## Auxiliary definitions used by the verification -/

/-- Value bound to key `k` by the latest binding in a pair list (used to
characterize what repeated `dictInsert` leaves in the section dict). -/
def lastValueFor (k : String) : List (String × String) → Option String
  | [] => none
  | q :: qs => (lastValueFor k qs).elim (if q.1 = k then some q.2 else none) some

/-- Spec-side characterization of the spec's words "purely a decimal
number" (the currency amounts `$5`, `$5.00` to be excluded): one or more
digits, optionally followed by a dot and one or more digits.  Stated
independently of the regex engine, to be compared with the source's
`re.match(r'^\d+(?:\.\d+)?$', latex)` test. -/
def isDecimalLiteral (cs : List Char) : Bool :=
  let ds := cs.takeWhile Char.isDigit
  let rest := cs.drop ds.length
  decide (ds ≠ []) &&
    (decide (rest = []) ||
      (decide (rest.head? = some '.') && decide (rest.drop 1 ≠ [])
        && (rest.drop 1).all Char.isDigit))

/-- Sample text with an `Introduction` heading matched at offset 1 and a
`Conclusion` heading matched at offset 18. -/
def sampleSectionText : String := "Q\nIntroduction\nA b\nConclusion\nC\n"

/-- Sample text in which two heading matches normalize to the same
section name `Introduction`. -/
def dupSectionText : String := "\nIntroduction\nA\nIntroduction\nB\n"

/-- The display-equation sample input of the claim. -/
def sampleEquationText : String := "Use $$x=y$$ here"

/-- A successfully extractable 300×300 PNG image. -/
def demoImage : RawImage :=
  { ok := true, bytes := [1, 2, 3], ext := "png", width := 300, height := 300 }

/-- A second 300×300 image (same pixel area, different payload). -/
def demoImage2 : RawImage :=
  { ok := true, bytes := [7], ext := "jpeg", width := 300, height := 300 }

/-- A page carrying both demo images whose text captions only figure 1. -/
def demoFigPage : Page :=
  { text := "Figure 1: bar chart\n\nrest", images := [demoImage, demoImage2] }

/-- The candidate the engine builds from `demoImage` on `demoFigPage`. -/
def demoCandidate : Candidate :=
  { image_bytes := [1, 2, 3], image_ext := "png", width := 300, height := 300,
    caption := "bar chart", page := 1, priority := 590000 }

/-- The candidate the engine builds from `demoImage2` on `demoFigPage`
(no `Figure 2` caption in the page text). -/
def demoCandidate2 : Candidate :=
  { image_bytes := [7], image_ext := "jpeg", width := 300, height := 300,
    caption := "", page := 1, priority := 90000 }

/-- A one-page document without container metadata. -/
def demoDoc : Document :=
  { pages := [{ text := "A sufficiently long title line\nBody", images := [] }],
    meta := { title := "", author := "" } }

/-- The default `PDFProcessor` configuration. -/
def demoConfig : Config :=
  { extract_figures := true, extract_equations := true,
    extract_citations := true, max_figures := 2 }

/-! ## Lemmas about the figure pipeline -/

theorem insertByPriorityDesc_perm (x : Candidate) (l : List Candidate) :
    List.Perm (insertByPriorityDesc x l) (x :: l) := by
  induction l with
  | nil => simp [insertByPriorityDesc]
  | cons y ys ih =>
    by_cases h : x.priority < y.priority
    · simp only [insertByPriorityDesc, if_pos h]
      exact (ih.cons y).trans (List.Perm.swap x y ys)
    · simp [insertByPriorityDesc, if_neg h]

theorem sortByPriorityDesc_perm (l : List Candidate) :
    List.Perm (sortByPriorityDesc l) l := by
  induction l with
  | nil => simp [sortByPriorityDesc]
  | cons x xs ih =>
    exact (insertByPriorityDesc_perm x (sortByPriorityDesc xs)).trans (ih.cons x)

theorem pairwise_insertByPriorityDesc {x : Candidate} {l : List Candidate}
    (h : List.Pairwise (fun a b => b.priority ≤ a.priority) l) :
    List.Pairwise (fun a b => b.priority ≤ a.priority) (insertByPriorityDesc x l) := by
  induction l with
  | nil => simp [insertByPriorityDesc]
  | cons y ys ih =>
    rcases List.pairwise_cons.mp h with ⟨hy, hys⟩
    by_cases hc : x.priority < y.priority
    · simp only [insertByPriorityDesc, if_pos hc]
      refine List.pairwise_cons.mpr ⟨?_, ih hys⟩
      intro z hz
      have hz2 : z ∈ x :: ys := (insertByPriorityDesc_perm x ys).subset hz
      rcases List.mem_cons.mp hz2 with rfl | hzys
      · exact Nat.le_of_lt hc
      · exact hy z hzys
    · simp only [insertByPriorityDesc, if_neg hc]
      refine List.pairwise_cons.mpr ⟨?_, h⟩
      intro z hz
      rcases List.mem_cons.mp hz with rfl | hzys
      · exact Nat.le_of_not_lt hc
      · exact Nat.le_trans (hy z hzys) (Nat.le_of_not_lt hc)

theorem sortByPriorityDesc_pairwise (l : List Candidate) :
    List.Pairwise (fun a b => b.priority ≤ a.priority) (sortByPriorityDesc l) := by
  induction l with
  | nil => simp [sortByPriorityDesc]
  | cons x xs ih => exact pairwise_insertByPriorityDesc ih

theorem filter_insertByPriorityDesc (x : Candidate) (l : List Candidate) (p : Nat) :
    (insertByPriorityDesc x l).filter (fun c => c.priority == p)
      = if x.priority = p
        then x :: l.filter (fun c => c.priority == p)
        else l.filter (fun c => c.priority == p) := by
  induction l with
  | nil => by_cases hxp : x.priority = p <;> simp [insertByPriorityDesc, hxp]
  | cons y ys ih =>
    by_cases hc : x.priority < y.priority
    · simp only [insertByPriorityDesc, if_pos hc, List.filter_cons]
      by_cases hyp : y.priority = p
      · have hxp : ¬ x.priority = p := by omega
        simp [hyp, hxp, ih, List.filter_cons]
      · by_cases hxp : x.priority = p <;>
          simp [hyp, hxp, ih, List.filter_cons]
    · simp only [insertByPriorityDesc, if_neg hc, List.filter_cons]
      by_cases hxp : x.priority = p <;> simp [hxp, List.filter_cons]

theorem filter_sortByPriorityDesc (l : List Candidate) (p : Nat) :
    (sortByPriorityDesc l).filter (fun c => c.priority == p)
      = l.filter (fun c => c.priority == p) := by
  induction l with
  | nil => simp [sortByPriorityDesc]
  | cons x xs ih =>
    simp only [sortByPriorityDesc, filter_insertByPriorityDesc, ih, List.filter_cons]
    by_cases hxp : x.priority = p <;> simp [hxp]

theorem imageCandidate_eq_some {pn : Nat} {pt : String} {idx : Nat}
    {img : RawImage} {c : Candidate}
    (h : imageCandidate pn pt idx img = some c) :
    c.width = img.width ∧ c.height = img.height ∧
    200 ≤ img.width ∧ 200 ≤ img.height ∧
    c.priority = c.width * c.height + (if c.caption ≠ "" then 500000 else 0) := by
  simp only [imageCandidate] at h
  split at h
  · exact absurd h (by simp)
  · split at h
    · exact absurd h (by simp)
    · rename_i hok hsz
      simp only [MIN_IMAGE_WIDTH, MIN_IMAGE_HEIGHT, not_or, Nat.not_lt] at hsz
      injection h with h2
      subst h2
      refine ⟨rfl, rfl, hsz.1, hsz.2, ?_⟩
      by_cases hcap : find_figure_caption pt (idx + 1) ≠ "" <;> simp [hcap]

theorem pageCandidates_prop {pn : Nat} {pt : String} {c : Candidate} :
    ∀ {idx : Nat} {imgs : List RawImage}, c ∈ pageCandidates pn pt idx imgs →
      200 ≤ c.width ∧ 200 ≤ c.height ∧
      c.priority = c.width * c.height + (if c.caption ≠ "" then 500000 else 0) := by
  intro idx imgs
  induction imgs generalizing idx with
  | nil => intro h; exact absurd h (by simp [pageCandidates])
  | cons img rest ih =>
    intro h
    rw [pageCandidates, List.mem_append] at h
    rcases h with h | h
    · cases himg : imageCandidate pn pt idx img with
      | none => rw [himg] at h; exact absurd h (by simp)
      | some c2 =>
        rw [himg] at h
        simp only [Option.elim, List.mem_singleton] at h
        subst h
        obtain ⟨hw, hh, hw2, hh2, hpri⟩ := imageCandidate_eq_some himg
        exact ⟨hw ▸ hw2, hh ▸ hh2, hpri⟩
    · exact ih h

theorem collectCandidates_prop {pages : List Page} {c : Candidate}
    (h : c ∈ collectCandidates pages) :
    200 ≤ c.width ∧ 200 ≤ c.height ∧
    c.priority = c.width * c.height + (if c.caption ≠ "" then 500000 else 0) := by
  rw [collectCandidates] at h
  generalize hpn : 1 = pn at h
  clear hpn
  induction pages generalizing pn with
  | nil => exact absurd h (by simp [collectCandidatesFrom])
  | cons pg rest ih =>
    rw [collectCandidatesFrom, List.mem_append] at h
    rcases h with h | h
    · exact pageCandidates_prop h
    · exact ih _ h

/-- Candidate count of one page is bounded by the number of its images
meeting the size thresholds. -/
theorem pageCandidates_length_le (pn : Nat) (pt : String) :
    ∀ (idx : Nat) (imgs : List RawImage),
      (pageCandidates pn pt idx imgs).length
        ≤ imgs.countP (fun im => decide (200 ≤ im.width) && decide (200 ≤ im.height)) := by
  intro idx imgs
  induction imgs generalizing idx with
  | nil => simp [pageCandidates]
  | cons img rest ih =>
    rw [pageCandidates, List.length_append, List.countP_cons]
    cases himg : imageCandidate pn pt idx img with
    | none =>
      simp only [himg, Option.elim, List.length_nil, Nat.zero_add]
      exact Nat.le_trans (ih (idx + 1)) (by split <;> omega)
    | some c2 =>
      obtain ⟨hw, hh, hw2, hh2, _⟩ := imageCandidate_eq_some himg
      have : (decide (200 ≤ img.width) && decide (200 ≤ img.height)) = true := by
        simp [hw2, hh2]
      simp only [himg, Option.elim, List.length_singleton, this, if_pos]
      have := ih (idx + 1)
      omega

theorem collectCandidatesFrom_length_le :
    ∀ (pn : Nat) (pages : List Page),
      (collectCandidatesFrom pn pages).length
        ≤ (pages.flatMap Page.images).countP
            (fun im => decide (200 ≤ im.width) && decide (200 ≤ im.height)) := by
  intro pn pages
  induction pages generalizing pn with
  | nil => simp [collectCandidatesFrom]
  | cons pg rest ih =>
    rw [collectCandidatesFrom, List.length_append, List.flatMap_cons, List.countP_append]
    exact Nat.add_le_add (pageCandidates_length_le pn pg.text 0 pg.images) (ih (pn + 1))

/-- Lengths produced by the save loop. -/
theorem saveFiguresFrom_length (od : String) :
    ∀ (i : Nat) (l : List Candidate), (saveFiguresFrom od i l).1.length = l.length := by
  intro i l
  induction l generalizing i with
  | nil => simp [saveFiguresFrom]
  | cons c rest ih => simp [saveFiguresFrom, ih]

/-- The save loop numbers figures consecutively starting at its counter. -/
theorem saveFiguresFrom_numbers (od : String) :
    ∀ (i : Nat) (l : List Candidate),
      (saveFiguresFrom od i l).1.map Figure.number = List.range' i l.length := by
  intro i l
  induction l generalizing i with
  | nil => simp [saveFiguresFrom]
  | cons c rest ih => simp [saveFiguresFrom, List.range'_succ, ih]

/-- The save loop's figure at position `j` gets path
`figurePath od (i + j)` with that candidate's extension. -/
theorem saveFiguresFrom_path (od : String) :
    ∀ (i j : Nat) (l : List Candidate),
      ((saveFiguresFrom od i l).1[j]?).map Figure.image_path
        = (l[j]?).map fun c => figurePath od (i + j) c.image_ext := by
  intro i j l
  induction l generalizing i j with
  | nil => simp [saveFiguresFrom]
  | cons c rest ih =>
    cases j with
    | zero => simp [saveFiguresFrom]
    | succ j =>
      have := ih (i + 1) j
      simpa [saveFiguresFrom, Nat.add_assoc, Nat.add_comm 1 j] using this

/-- Every figure path built by the save loop is also written to disk. -/
theorem saveFiguresFrom_paths_written (od : String) :
    ∀ (i : Nat) (l : List Candidate),
      (saveFiguresFrom od i l).1.map Figure.image_path
        = (saveFiguresFrom od i l).2.map Prod.fst := by
  intro i l
  induction l generalizing i with
  | nil => simp [saveFiguresFrom]
  | cons c rest ih => simp [saveFiguresFrom, ih]

/-- The save loop preserves the candidate data (caption, page,
dimensions) in order. -/
theorem saveFiguresFrom_proj (od : String) :
    ∀ (i : Nat) (l : List Candidate),
      (saveFiguresFrom od i l).1.map (fun f => (f.caption, f.page, f.width, f.height))
        = l.map fun c => (c.caption, c.page, c.width, c.height) := by
  intro i l
  induction l generalizing i with
  | nil => simp [saveFiguresFrom]
  | cons c rest ih => simp [saveFiguresFrom, ih]

/-- C1: every candidate's priority score is `width*height` plus `500000`
exactly when the caption is non-empty; the selector orders candidates by
priority descending with stability (equal-priority candidates keep
encounter order: the filter at any fixed priority is unchanged), the
sorted list is a permutation of the candidates; for two candidates of
equal pixel area a captioned one has strictly higher priority than an
uncaptioned one; and the returned figures list the top `max_figures`
candidates in exactly this rank order. -/
theorem claim_C1 :
    (∀ (pages : List Page) (c : Candidate), c ∈ collectCandidates pages →
        c.priority = c.width * c.height + (if c.caption ≠ "" then 500000 else 0))
  ∧ (∀ l : List Candidate,
        List.Pairwise (fun a b => b.priority ≤ a.priority) (sortByPriorityDesc l)
      ∧ List.Perm (sortByPriorityDesc l) l
      ∧ ∀ p : Nat, (sortByPriorityDesc l).filter (fun c => c.priority == p)
            = l.filter (fun c => c.priority == p))
  ∧ (∀ (pages : List Page) (c c' : Candidate), c ∈ collectCandidates pages →
        c' ∈ collectCandidates pages → c.width * c.height = c'.width * c'.height →
        c.caption ≠ "" → c'.caption = "" → c'.priority < c.priority)
  ∧ (∀ (max_figures : Nat) (output_dir : String) (pages : List Page),
        (extract_figures max_figures output_dir pages).1.map
            (fun f => (f.caption, f.page, f.width, f.height))
          = ((sortByPriorityDesc (collectCandidates pages)).take max_figures).map
              fun c => (c.caption, c.page, c.width, c.height)) := by
  refine ⟨?_, ?_, ?_, ?_⟩
  · intro pages c h
    exact (collectCandidates_prop h).2.2
  · intro l
    exact ⟨sortByPriorityDesc_pairwise l, sortByPriorityDesc_perm l,
           filter_sortByPriorityDesc l⟩
  · intro pages c c' hc hc' harea hcap hcap'
    have h1 := (collectCandidates_prop hc).2.2
    have h2 := (collectCandidates_prop hc').2.2
    rw [if_pos hcap] at h1
    rw [if_neg (by simp [hcap'])] at h2
    omega
  · intro max_figures output_dir pages
    simp only [extract_figures]
    rw [saveFiguresFrom_proj]

/-- Witness for C1 at a concrete one-page document: the captioned
300×300 candidate obeys the priority formula, and it strictly outranks
the equal-area uncaptioned candidate. -/
theorem claim_C1_witness :
    (demoCandidate ∈ collectCandidates [demoFigPage]
      ∧ demoCandidate.priority
          = demoCandidate.width * demoCandidate.height
            + (if demoCandidate.caption ≠ "" then 500000 else 0))
  ∧ (demoCandidate2 ∈ collectCandidates [demoFigPage]
      ∧ demoCandidate.width * demoCandidate.height
          = demoCandidate2.width * demoCandidate2.height
      ∧ demoCandidate.caption ≠ "" ∧ demoCandidate2.caption = ""
      ∧ demoCandidate2.priority < demoCandidate.priority) :=
  ⟨⟨by decide, claim_C1.1 [demoFigPage] demoCandidate (by decide)⟩,
   ⟨by decide, by decide, by decide, by decide,
    claim_C1.2.2.1 [demoFigPage] demoCandidate demoCandidate2
      (by decide) (by decide) (by decide) (by decide) (by decide)⟩⟩

/-- C2: the figure list is no longer than `max_figures` and no longer
than the number of images meeting the 200×200 thresholds, and every
retained candidate meets the thresholds. -/
theorem claim_C2 :
    ∀ (max_figures : Nat) (output_dir : String) (pages : List Page),
      (extract_figures max_figures output_dir pages).1.length ≤ max_figures
    ∧ (extract_figures max_figures output_dir pages).1.length
        ≤ (pages.flatMap Page.images).countP
            (fun im => decide (200 ≤ im.width) && decide (200 ≤ im.height))
    ∧ ∀ c ∈ collectCandidates pages, 200 ≤ c.width ∧ 200 ≤ c.height := by
  intro max_figures output_dir pages
  have hlen : (extract_figures max_figures output_dir pages).1.length
      = min max_figures (sortByPriorityDesc (collectCandidates pages)).length := by
    simp only [extract_figures]
    rw [saveFiguresFrom_length, List.length_take]
  refine ⟨?_, ?_, ?_⟩
  · rw [hlen]; exact Nat.min_le_left _ _
  · rw [hlen]
    refine Nat.le_trans (Nat.min_le_right _ _) ?_
    rw [(sortByPriorityDesc_perm _).length_eq]
    exact collectCandidatesFrom_length_le 1 pages
  · intro c hc
    exact ⟨(collectCandidates_prop hc).1, (collectCandidates_prop hc).2.1⟩

/-- Witness for C2 at a concrete one-page document. -/
theorem claim_C2_witness :
    demoCandidate ∈ collectCandidates [demoFigPage]
  ∧ 200 ≤ demoCandidate.width ∧ 200 ≤ demoCandidate.height :=
  ⟨by decide, (claim_C2 2 "out" [demoFigPage]).2.2 demoCandidate (by decide)⟩

/-- C3: the selector's figures carry numbers exactly `1..k`, the `j`-th
figure's path is `<output_dir>/figure_<j+1>.<original extension>` (the
extension of the `j`-th ranked candidate), and every such path is written
on disk by the save loop. -/
theorem claim_C3 :
    ∀ (max_figures : Nat) (output_dir : String) (pages : List Page),
      ((extract_figures max_figures output_dir pages).1.map Figure.number
          = List.range' 1 (extract_figures max_figures output_dir pages).1.length)
    ∧ (∀ j : Nat,
          ((extract_figures max_figures output_dir pages).1[j]?).map Figure.image_path
            = ((((sortByPriorityDesc (collectCandidates pages)).take max_figures)[j]?).map
                fun c => output_dir ++ "/figure_" ++ toString (j + 1) ++ "." ++ c.image_ext))
    ∧ ((extract_figures max_figures output_dir pages).1.map Figure.image_path
        = (extract_figures max_figures output_dir pages).2.filesWritten.map Prod.fst) := by
  intro max_figures output_dir pages
  refine ⟨?_, ?_, ?_⟩
  · simp only [extract_figures]
    rw [saveFiguresFrom_numbers, saveFiguresFrom_length]
  · intro j
    simp only [extract_figures]
    rw [saveFiguresFrom_path]
    simp [figurePath, Nat.add_comm]
  · simp only [extract_figures]
    rw [saveFiguresFrom_paths_written]

/-! ## Lemmas about the section dictionary -/

theorem dictLookup_dictInsert (l : List (String × String)) (kv : String × String) (k : String) :
    dictLookup (dictInsert l kv) k = if kv.1 = k then some kv.2 else dictLookup l k := by
  induction l with
  | nil => simp [dictInsert, dictLookup]
  | cons p ps ih =>
    by_cases h : p.1 = kv.1
    · simp only [dictInsert, if_pos h]
      by_cases h2 : kv.1 = k
      · simp [dictLookup, h2]
      · have h3 : ¬ p.1 = k := by rw [h]; exact h2
        simp [dictLookup, h2, h3]
    · simp only [dictInsert, if_neg h]
      by_cases h3 : p.1 = k
      · have h4 : ¬ kv.1 = k := by
          intro hk; exact h (h3.trans hk.symm)
        simp [dictLookup, h3, h4]
      · simp [dictLookup, h3, ih]

theorem dictLookup_foldl (pairs : List (String × String)) :
    ∀ (init : List (String × String)) (k : String),
      dictLookup (pairs.foldl dictInsert init) k
        = (lastValueFor k pairs).elim (dictLookup init k) some := by
  induction pairs with
  | nil => intro init k; simp [lastValueFor]
  | cons q qs ih =>
    intro init k
    rw [List.foldl_cons, ih, lastValueFor]
    cases hl : lastValueFor k qs with
    | some v => simp [Option.elim]
    | none =>
      simp only [Option.elim, dictLookup_dictInsert]
      by_cases h : q.1 = k <;> simp [h]

theorem lastValueFor_mem {k v : String} :
    ∀ {l : List (String × String)}, lastValueFor k l = some v → (k, v) ∈ l := by
  intro l
  induction l with
  | nil => intro h; exact absurd h (by simp [lastValueFor])
  | cons q qs ih =>
    intro h
    rw [lastValueFor] at h
    cases hl : lastValueFor k qs with
    | some w =>
      rw [hl] at h
      simp only [Option.elim] at h
      exact List.mem_cons_of_mem q (ih (hl.trans h))
    | none =>
      rw [hl] at h
      simp only [Option.elim] at h
      by_cases hq : q.1 = k
      · rw [if_pos hq] at h
        injection h with h2
        have : q = (k, v) := by
          cases q; simp_all
        exact this ▸ List.mem_cons_self q qs
      · rw [if_neg hq] at h
        exact absurd h (by simp)

theorem lastValueFor_eq_filter (k : String) :
    ∀ (l : List (String × String)),
      lastValueFor k l = ((l.filter fun q => q.1 == k).getLast?).map Prod.snd := by
  intro l
  induction l with
  | nil => simp [lastValueFor]
  | cons q qs ih =>
    rw [lastValueFor, List.filter_cons]
    by_cases h : q.1 = k
    · simp only [h, beq_self_eq_true, if_pos]
      cases hfl : (qs.filter fun q => q.1 == k) with
      | nil =>
        rw [ih, hfl]
        simp [Option.elim]
      | cons b bs =>
        rw [ih, hfl]
        have : ((q :: b :: bs).getLast?) = ((b :: bs).getLast?) := by
          simp [List.getLast?]
        rw [this]
        cases hgl : (b :: bs).getLast? with
        | none => simp at hgl
        | some w => simp [Option.elim]
    · have hb : (q.1 == k) = false := by simp [h]
      rw [hb]
      simp only [Bool.false_eq_true, if_false]
      rw [ih]
      cases hgl : ((qs.filter fun q => q.1 == k).getLast?) with
      | none => simp [Option.elim, h]
      | some w => simp [Option.elim]

/-- Lookup in the finished section dict is the latest inserted binding. -/
theorem extract_sections_lookup (text : String) (k : String) :
    dictLookup (extract_sections text) k
      = (((sectionPairs text).filter fun q => q.1 == k).getLast?).map Prod.snd := by
  rw [extract_sections, dictLookup_foldl, lastValueFor_eq_filter]
  cases ((sectionPairs text).filter fun q => q.1 == k).getLast? with
  | none => simp [Option.elim, dictLookup]
  | some w => simp [Option.elim]

theorem sectionPairs_mem {text k v : String} (h : (k, v) ∈ sectionPairs text) :
    ∃ i : Nat, i < (section_matches text).length ∧
      ((section_matches text)[i]?).map Prod.snd = some k ∧
      v = sectionSpanAt text i := by
  rw [sectionPairs] at h
  rw [List.mem_map] at h
  obtain ⟨i, hi, heq⟩ := h
  rw [List.mem_range] at hi
  have h1 := congrArg Prod.fst heq
  have h2 := congrArg Prod.snd heq
  simp only at h1 h2
  refine ⟨i, hi, ?_, h2.symm⟩
  rw [List.getElem?_eq_getElem hi] at h1 ⊢
  simp only [Option.elim] at h1
  simp [h1]

/-- C4 counterexample: in `sampleSectionText` the sorted heading matches
start at offsets 1 and 18, but the span stored for `Introduction` is NOT
the raw slice `text[1:18]` (the code stores the whitespace-stripped
slice, while the claim asserts the exact slice). -/
theorem claim_C4_counterexample :
    (section_matches sampleSectionText).map Prod.fst = [1, 18]
  ∧ dictLookup (extract_sections sampleSectionText) "Introduction"
      ≠ some (String.mk (pySlice sampleSectionText.data 1 18)) := by
  constructor
  · decide
  · decide

/-- C4 (amended): every span stored by the section segmenter is the
whitespace-STRIPPED slice of the text between the corresponding sorted
match start and the next match start (or end of text for the last match),
i.e. `text[start_i:start_{i+1}].strip()`; in the sample text the map
contains `Introduction -> text[1:18].strip()` and
`Conclusion -> text[18:].strip()`. -/
theorem claim_C4 :
    (∀ (text name v : String),
        dictLookup (extract_sections text) name = some v →
        ∃ i : Nat, i < (section_matches text).length ∧
          ((section_matches text)[i]?).map Prod.snd = some name ∧
          v = sectionSpanAt text i)
  ∧ dictLookup (extract_sections sampleSectionText) "Introduction"
      = some (String.mk (pyStrip (pySlice sampleSectionText.data 1 18)))
  ∧ dictLookup (extract_sections sampleSectionText) "Conclusion"
      = some (String.mk (pyStrip (sampleSectionText.data.drop 18))) := by
  refine ⟨?_, by decide, by decide⟩
  intro text name v h
  rw [extract_sections, dictLookup_foldl] at h
  cases hl : lastValueFor name (sectionPairs text) with
  | none => rw [hl] at h; simp [Option.elim, dictLookup] at h
  | some w =>
    rw [hl] at h
    simp only [Option.elim] at h
    injection h with h2
    subst h2
    exact sectionPairs_mem (lastValueFor_mem hl)

/-- Witness for C4's general part at the sample text. -/
theorem claim_C4_witness :
    dictLookup (extract_sections sampleSectionText) "Introduction"
        = some "Introduction\nA b"
  ∧ ∃ i : Nat, i < (section_matches sampleSectionText).length ∧
      ((section_matches sampleSectionText)[i]?).map Prod.snd = some "Introduction" ∧
      "Introduction\nA b" = sectionSpanAt sampleSectionText i :=
  ⟨by decide,
   claim_C4.1 sampleSectionText "Introduction" "Introduction\nA b" (by decide)⟩

/-- C5: when two or more heading matches normalize to the same section
name, the finished map binds that name to the span of the LAST such
occurrence in ascending start-offset order (the pairs are inserted in
ascending order and a later insertion overwrites an earlier one). -/
theorem claim_C5 :
    ∀ (text name : String),
      2 ≤ ((sectionPairs text).filter fun q => q.1 == name).length →
      dictLookup (extract_sections text) name
        = (((sectionPairs text).filter fun q => q.1 == name).getLast?).map Prod.snd := by
  intro text name _
  exact extract_sections_lookup text name

/-- Witness for C5: a text whose `Introduction` heading occurs twice; the
map holds the second occurrence's span. -/
theorem claim_C5_witness :
    (2 ≤ ((sectionPairs dupSectionText).filter fun q => q.1 == "Introduction").length)
  ∧ dictLookup (extract_sections dupSectionText) "Introduction"
      = (((sectionPairs dupSectionText).filter fun q => q.1 == "Introduction").getLast?).map
          Prod.snd :=
  ⟨by decide, claim_C5 dupSectionText "Introduction" (by decide)⟩

/-! ## Lemmas about the position→page mapper -/

/-- The rational computation of `_find_page_number` equals the integer
formula `min (position * pageCount / totalLen + 1) pageCount` (exact
rational arithmetic; Python instead raises `ZeroDivisionError` when
`pageCount = 0` or `totalLen = 0`, and the claims only use the formula in
the non-raising regime). -/
theorem find_page_number_formula (n L pos : Nat) :
    find_page_number n L pos = min (pos * n / L + 1) n := by
  rw [find_page_number]
  have key : ((pos : ℚ)) / ((L : ℚ) / (n : ℚ)) = ((pos * n : Nat) : ℚ) / ((L : Nat) : ℚ) := by
    push_cast
    rw [div_div_eq_mul_div]
  rw [key, Int.floor_toNat, Nat.floor_div_nat, Nat.floor_natCast]

/-- C6 counterexample: for a 4-character text and page count 8 (≥ 1), the
code maps offset `len(text)-1 = 3` to page 7, not to the last page 8, so
the claim's "maps offset len(text)-1 to the last page for any page count
≥ 1" is false as stated. -/
theorem claim_C6_counterexample :
    (1 : Nat) ≤ 8 ∧ find_page_number 8 4 (4 - 1) = 7 ∧ (7 : Nat) ≠ 8 := by
  refine ⟨by decide, ?_, by decide⟩
  rw [find_page_number_formula]
  decide

/-- C6 (amended): for every page count `n` and text length `L` with
`1 ≤ n ≤ L`, the mapper computes
`floor(offset / (total_length / page_count)) + 1` clamped to the page
count (equivalently `min (offset*n/L + 1) n` over exact rationals), maps
offset 0 to page 1 and offset `L-1` to the last page, and its result
always lies in `[1, n]`.  (The restriction `n ≤ L` is forced by the
counterexample: for `n > L` the last offset does not map to the last
page, and for `L = 0` Python raises `ZeroDivisionError`.) -/
theorem claim_C6 :
    ∀ (L n : Nat), 1 ≤ n → n ≤ L →
      find_page_number n L 0 = 1
    ∧ find_page_number n L (L - 1) = n
    ∧ (∀ pos : Nat, find_page_number n L pos = min (pos * n / L + 1) n)
    ∧ (∀ pos : Nat, 1 ≤ find_page_number n L pos ∧ find_page_number n L pos ≤ n) := by
  intro L n hn hnL
  have hL : 1 ≤ L := Nat.le_trans hn hnL
  have hform : ∀ pos : Nat, find_page_number n L pos = min (pos * n / L + 1) n :=
    fun pos => find_page_number_formula n L pos
  refine ⟨?_, ?_, hform, ?_⟩
  · rw [hform 0]
    simp [Nat.zero_div, Nat.min_eq_left hn]
  · rw [hform (L - 1)]
    have hdiv : (L - 1) * n / L = n - 1 := by
      have hlo : (n - 1) * L ≤ (L - 1) * n := by
        have e1 : (n - 1) * L = n * L - L := by
          rw [Nat.sub_mul, Nat.one_mul]
        have e2 : (L - 1) * n = L * n - n := by
          rw [Nat.sub_mul, Nat.one_mul]
        rw [e1, e2, Nat.mul_comm L n]
        exact Nat.sub_le_sub_left hnL (n * L)
      have hhi : (L - 1) * n < (n - 1 + 1) * L := by
        rw [Nat.sub_add_cancel hn]
        have e2 : (L - 1) * n = L * n - n := by
          rw [Nat.sub_mul, Nat.one_mul]
        rw [e2, Nat.mul_comm n L]
        have : 1 ≤ L * n := Nat.one_le_iff_ne_zero.mpr (by positivity)
        omega
      exact Nat.div_eq_of_lt_le hlo hhi
    rw [hdiv, Nat.sub_add_cancel hn, Nat.min_self]
  · intro pos
    rw [hform pos]
    constructor
    · exact Nat.le_min.mpr ⟨Nat.le_add_left 1 _, hn⟩
    · exact Nat.min_le_right _ _

/-- Witness for C6 at text length 4 and page count 2: offset 0 maps to
page 1 and offset 3 maps to page 2. -/
theorem claim_C6_witness :
    ((1 : Nat) ≤ 2 ∧ (2 : Nat) ≤ 4)
  ∧ (find_page_number 2 4 0 = 1
    ∧ find_page_number 2 4 (4 - 1) = 2
    ∧ (∀ pos : Nat, find_page_number 2 4 pos = min (pos * 2 / 4 + 1) 2)
    ∧ (∀ pos : Nat, 1 ≤ find_page_number 2 4 pos ∧ find_page_number 2 4 pos ≤ 2)) :=
  ⟨⟨by decide, by decide⟩, claim_C6 4 2 (by decide) (by decide)⟩

/-! ## Membership characterizations for the pattern matcher -/

theorem mem_matchAll_eps {cs : List Char} {i e : Nat} {g : Option (Nat × Nat)} :
    (e, g) ∈ matchAll RE.eps cs i ↔ e = i ∧ g = none := by
  simp [matchAll]

theorem mem_matchAll_ch {c : Char} {cs : List Char} {i e : Nat} {g : Option (Nat × Nat)} :
    (e, g) ∈ matchAll (RE.ch c) cs i ↔ cs[i]? = some c ∧ e = i + 1 ∧ g = none := by
  cases h : cs[i]? with
  | none => simp [matchAll, h]
  | some d =>
    by_cases hd : d = c
    · subst hd; simp [matchAll, h]
    · simp [matchAll, h, hd]

theorem mem_matchAll_cls {p : Char → Bool} {cs : List Char} {i e : Nat}
    {g : Option (Nat × Nat)} :
    (e, g) ∈ matchAll (RE.cls p) cs i ↔
      (∃ d, cs[i]? = some d ∧ p d = true) ∧ e = i + 1 ∧ g = none := by
  cases h : cs[i]? with
  | none => simp [matchAll, h]
  | some d => by_cases hp : p d <;> simp [matchAll, h, hp]

theorem mem_matchAll_cat {r s : RE} {cs : List Char} {i e : Nat} {g : Option (Nat × Nat)} :
    (e, g) ∈ matchAll (RE.cat r s) cs i ↔
      ∃ e1 g1 g2, (e1, g1) ∈ matchAll r cs i ∧ (e, g2) ∈ matchAll s cs e1
        ∧ g = mergeGroup g1 g2 := by
  simp only [matchAll, List.mem_flatMap, List.mem_map]
  constructor
  · rintro ⟨⟨e1, g1⟩, h1, ⟨e2, g2⟩, h2, heq⟩
    have he := congrArg Prod.fst heq
    have hg := congrArg Prod.snd heq
    simp only at he hg
    subst he
    exact ⟨e1, g1, g2, h1, h2, hg.symm⟩
  · rintro ⟨e1, g1, g2, h1, h2, rfl⟩
    exact ⟨(e1, g1), h1, (e, g2), h2, rfl⟩

theorem mem_matchAll_alt {r s : RE} {cs : List Char} {i e : Nat} {g : Option (Nat × Nat)} :
    (e, g) ∈ matchAll (RE.alt r s) cs i ↔
      (e, g) ∈ matchAll r cs i ∨ (e, g) ∈ matchAll s cs i := by
  simp [matchAll]

theorem mem_matchAll_opt {r : RE} {cs : List Char} {i e : Nat} {g : Option (Nat × Nat)} :
    (e, g) ∈ matchAll (RE.opt r) cs i ↔
      (e, g) ∈ matchAll r cs i ∨ (e = i ∧ g = none) := by
  simp [matchAll]

theorem mem_matchAll_grp {r : RE} {cs : List Char} {i e : Nat} {g : Option (Nat × Nat)} :
    (e, g) ∈ matchAll (RE.grp r) cs i ↔
      (∃ g1, (e, g1) ∈ matchAll r cs i) ∧ g = some (i, e) := by
  simp only [matchAll, List.mem_map]
  constructor
  · rintro ⟨⟨e1, g1⟩, h1, heq⟩
    have he := congrArg Prod.fst heq
    have hg := congrArg Prod.snd heq
    simp only at he hg
    subst he
    exact ⟨⟨g1, h1⟩, hg.symm⟩
  · rintro ⟨⟨g1, h1⟩, rfl⟩
    exact ⟨(e, g1), h1, rfl⟩

theorem mem_matchAll_plus {p : Char → Bool} {cs : List Char} {i e : Nat}
    {g : Option (Nat × Nat)} :
    (e, g) ∈ matchAll (RE.plus p) cs i ↔
      g = none ∧ i < e ∧ e ≤ i + ((cs.drop i).takeWhile p).length := by
  simp only [matchAll, List.mem_map, List.mem_range]
  constructor
  · rintro ⟨j, hj, heq⟩
    have he := congrArg Prod.fst heq
    have hg := congrArg Prod.snd heq
    simp only at he hg
    exact ⟨hg.symm, by omega, by omega⟩
  · rintro ⟨rfl, h1, h2⟩
    exact ⟨((cs.drop i).takeWhile p).length - (e - i), by omega, by
      have : i + (((cs.drop i).takeWhile p).length
          - (((cs.drop i).takeWhile p).length - (e - i))) = e := by omega
      rw [this]⟩

theorem mem_matchAll_dollar {cs : List Char} {i e : Nat} {g : Option (Nat × Nat)} :
    (e, g) ∈ matchAll RE.dollar cs i ↔
      (i = cs.length ∨ (i + 1 = cs.length ∧ cs[i]? = some '\n')) ∧ e = i ∧ g = none := by
  by_cases h : i = cs.length ∨ (i + 1 = cs.length ∧ cs[i]? = some '\n') <;>
    simp [matchAll, h]

/-- Every match end is at or after the match start. -/
theorem le_of_mem_matchAll :
    ∀ {r : RE} {cs : List Char} {i e : Nat} {g : Option (Nat × Nat)},
      (e, g) ∈ matchAll r cs i → i ≤ e := by
  intro r
  induction r with
  | eps =>
    intro cs i e g h; rw [mem_matchAll_eps] at h; omega
  | ch c =>
    intro cs i e g h; rw [mem_matchAll_ch] at h; omega
  | chCI c =>
    intro cs i e g h
    cases hc : cs[i]? with
    | none => simp only [matchAll, hc] at h; exact absurd h (by simp)
    | some d =>
      simp only [matchAll, hc] at h
      split at h
      · rw [List.mem_singleton] at h
        have := congrArg Prod.fst h
        simp only at this
        omega
      · exact absurd h (by simp)
  | cls p =>
    intro cs i e g h; rw [mem_matchAll_cls] at h; omega
  | cat r s ihr ihs =>
    intro cs i e g h
    rw [mem_matchAll_cat] at h
    obtain ⟨e1, g1, g2, h1, h2, _⟩ := h
    exact Nat.le_trans (ihr h1) (ihs h2)
  | alt r s ihr ihs =>
    intro cs i e g h
    rw [mem_matchAll_alt] at h
    rcases h with h | h
    · exact ihr h
    · exact ihs h
  | starG p =>
    intro cs i e g h
    simp only [matchAll, List.mem_map, List.mem_range] at h
    obtain ⟨j, _, heq⟩ := h
    have := congrArg Prod.fst heq
    simp only at this
    omega
  | starL p =>
    intro cs i e g h
    simp only [matchAll, List.mem_map, List.mem_range] at h
    obtain ⟨j, _, heq⟩ := h
    have := congrArg Prod.fst heq
    simp only at this
    omega
  | plus p =>
    intro cs i e g h; rw [mem_matchAll_plus] at h; omega
  | opt r ihr =>
    intro cs i e g h
    rw [mem_matchAll_opt] at h
    rcases h with h | ⟨he, _⟩
    · exact ihr h
    · omega
  | grp r ihr =>
    intro cs i e g h
    rw [mem_matchAll_grp] at h
    obtain ⟨⟨g1, h1⟩, _⟩ := h
    exact ihr h1
  | dollar =>
    intro cs i e g h; rw [mem_matchAll_dollar] at h; omega

/-! ## takeWhile / dropWhile facts used for the decimal filter -/

theorem takeWhile_getElem? {p : Char → Bool} :
    ∀ {l : List Char} {i : Nat}, i < (l.takeWhile p).length →
      ∃ c, l[i]? = some c ∧ p c = true := by
  intro l
  induction l with
  | nil => intro i h; simp [List.takeWhile] at h
  | cons a l ih =>
    intro i h
    by_cases hp : p a
    · rw [List.takeWhile_cons_of_pos hp] at h
      cases i with
      | zero => exact ⟨a, by simp, hp⟩
      | succ i =>
        obtain ⟨c, h1, h2⟩ := ih (Nat.lt_of_succ_lt_succ h)
        exact ⟨c, by simpa using h1, h2⟩
    · rw [List.takeWhile_cons_of_neg (by simpa using hp)] at h
      simp at h

theorem length_takeWhile_le' {p : Char → Bool} (l : List Char) :
    (l.takeWhile p).length ≤ l.length :=
  ( List.takeWhile_prefix p).length_le

theorem drop_length_takeWhile {p : Char → Bool} (l : List Char) :
    l.drop (l.takeWhile p).length = l.dropWhile p := by
  have h := List.takeWhile_append_dropWhile p l
  have h2 := List.drop_left (l.takeWhile p) (l.dropWhile p)
  rw [h] at h2
  exact h2

theorem head?_dropWhile_not {p : Char → Bool} :
    ∀ {l : List Char} {c : Char}, (l.dropWhile p).head? = some c → p c = false := by
  intro l
  induction l with
  | nil => intro c h; simp [List.dropWhile] at h
  | cons a l ih =>
    intro c h
    by_cases hp : p a
    · rw [List.dropWhile_cons_of_pos hp] at h
      exact ih h
    · rw [List.dropWhile_cons_of_neg (by simpa using hp)] at h
      simp only [List.head?_cons, Option.some.injEq] at h
      subst h
      simpa using hp

/-- The character just past the digit run, if any, is not a digit. -/
theorem getElem?_after_takeWhile {p : Char → Bool} {l : List Char} {c : Char}
    (h : l[(l.takeWhile p).length]? = some c) : p c = false := by
  have h0 : (l.drop (l.takeWhile p).length)[0]? = some c := by
    rw [List.getElem?_drop]
    simpa using h
  rw [drop_length_takeWhile] at h0
  cases hd : l.dropWhile p with
  | nil => rw [hd] at h0; exact absurd h0 (by simp)
  | cons d rest =>
    rw [hd] at h0
    simp only [List.getElem?_cons_zero, Option.some.injEq] at h0
    subst h0
    exact head?_dropWhile_not (p := p) (l := l) (by rw [hd]; rfl)

/-- A list all of whose elements satisfy `p` is its own `takeWhile`. -/
theorem takeWhile_length_of_all {p : Char → Bool} {l : List Char}
    (h : l.all p = true) : (l.takeWhile p).length = l.length := by
  rw [List.takeWhile_eq_self_iff.mpr (List.all_eq_true.mp h)]

theorem all_of_takeWhile_length {p : Char → Bool} {l : List Char}
    (h : l.length ≤ (l.takeWhile p).length) : l.all p = true := by
  have heq : l.takeWhile p = l :=
    ( List.takeWhile_prefix p).eq_of_length
      (Nat.le_antisymm (length_takeWhile_le' l) h)
  exact List.all_eq_true.mpr (List.takeWhile_eq_self_iff.mp heq)

/-! ## The inline-equation currency filter -/

/-- If the currency pattern matches a string whose last character is not
whitespace, the string is purely a decimal number. -/
theorem decimal_forward {cs : List Char}
    (hlast : ∀ c, cs.getLast? = some c → pyIsSpace c = false)
    {e : Nat} {g : Option (Nat × Nat)}
    (h : (e, g) ∈ matchAll decimalRE cs 0) : isDecimalLiteral cs = true := by
  have hdef : decimalRE
      = RE.cat (RE.plus Char.isDigit)
          (RE.cat (RE.opt (RE.cat (RE.ch '.') (RE.cat (RE.plus Char.isDigit) RE.eps)))
            (RE.cat RE.dollar RE.eps)) := rfl
  rw [hdef, mem_matchAll_cat] at h
  obtain ⟨e1, g1, g2, h1, h2, -⟩ := h
  rw [mem_matchAll_plus, List.drop_zero] at h1
  obtain ⟨-, he1pos, he1le⟩ := h1
  have hkle : (cs.takeWhile Char.isDigit).length ≤ cs.length := length_takeWhile_le' cs
  rw [mem_matchAll_cat] at h2
  obtain ⟨e2, g2a, g2b, h2a, h2b, -⟩ := h2
  rw [mem_matchAll_cat] at h2b
  obtain ⟨e3, g3a, g3b, h3a, h3b, -⟩ := h2b
  rw [mem_matchAll_dollar] at h3a
  obtain ⟨hdollar, -, -⟩ := h3a
  have he2 : e2 = cs.length := by
    rcases hdollar with h | ⟨hlen, hnl⟩
    · exact h
    · exfalso
      have hgl : cs.getLast? = some '\n' := by
        rw [List.getLast?_eq_getElem?]
        have h9 : cs.length - 1 = e2 := by omega
        rw [h9]; exact hnl
      have := hlast '\n' hgl
      simp [pyIsSpace] at this
  rw [mem_matchAll_opt] at h2a
  rcases h2a with hinner | ⟨heq, -⟩
  · -- the `.digits` branch was taken
    rw [mem_matchAll_cat] at hinner
    obtain ⟨e4, g4a, g4b, h4a, h4b, -⟩ := hinner
    rw [mem_matchAll_ch] at h4a
    obtain ⟨hdot, he4, -⟩ := h4a
    subst he4
    rw [mem_matchAll_cat] at h4b
    obtain ⟨e5, g5a, g5b, h5a, h5b, -⟩ := h4b
    rw [mem_matchAll_plus] at h5a
    obtain ⟨-, h5pos, h5le⟩ := h5a
    rw [mem_matchAll_eps] at h5b
    obtain ⟨he5, -⟩ := h5b
    have he1k : e1 = (cs.takeWhile Char.isDigit).length := by
      by_contra hne
      have hlt : e1 < (cs.takeWhile Char.isDigit).length := by omega
      obtain ⟨c, hc1, hc2⟩ := takeWhile_getElem? hlt
      rw [hdot] at hc1
      injection hc1 with hcc
      subst hcc
      exact absurd hc2 (by decide)
    obtain ⟨hlt, hval⟩ := List.getElem?_eq_some.mp hdot
    have hbsall : (cs.drop (e1 + 1)).all Char.isDigit = true := by
      apply all_of_takeWhile_length
      rw [List.length_drop]
      omega
    have hbsne : cs.drop (e1 + 1) ≠ [] := by
      apply List.length_pos.mp
      rw [List.length_drop]
      omega
    have hrest : cs.drop (cs.takeWhile Char.isDigit).length = '.' :: cs.drop (e1 + 1) := by
      rw [← he1k]
      rw [List.drop_eq_getElem_cons hlt, hval]
    have htwne : cs.takeWhile Char.isDigit ≠ [] := by
      apply List.length_pos.mp
      omega
    simp only [isDecimalLiteral, hrest]
    simp [htwne, hbsne, hbsall]
  · -- the optional part was skipped: the whole string is digits
    have hklen : (cs.takeWhile Char.isDigit).length = cs.length := by omega
    have hrest : cs.drop (cs.takeWhile Char.isDigit).length = [] := by
      rw [hklen]
      exact List.drop_length cs
    have htwne : cs.takeWhile Char.isDigit ≠ [] := by
      apply List.length_pos.mp
      omega
    simp only [isDecimalLiteral, hrest]
    simp [htwne]

/-- A purely decimal string is matched by the currency pattern. -/
theorem decimal_backward {cs : List Char} (h : isDecimalLiteral cs = true) :
    ∃ e g, (e, g) ∈ matchAll decimalRE cs 0 := by
  have hdef : decimalRE
      = RE.cat (RE.plus Char.isDigit)
          (RE.cat (RE.opt (RE.cat (RE.ch '.') (RE.cat (RE.plus Char.isDigit) RE.eps)))
            (RE.cat RE.dollar RE.eps)) := rfl
  simp only [isDecimalLiteral, Bool.and_eq_true, Bool.or_eq_true,
    decide_eq_true_eq] at h
  obtain ⟨htwne, hrest⟩ := h
  have hkpos : 0 < (cs.takeWhile Char.isDigit).length := List.length_pos.mpr htwne
  have hkle : (cs.takeWhile Char.isDigit).length ≤ cs.length := length_takeWhile_le' cs
  rcases hrest with hnil | ⟨⟨hhead, hbne⟩, hall⟩
  · have hklen : (cs.takeWhile Char.isDigit).length = cs.length := by
      have h9 := congrArg List.length hnil
      rw [List.length_drop] at h9
      simp only [List.length_nil] at h9
      omega
    refine ⟨cs.length, none, ?_⟩
    rw [hdef, mem_matchAll_cat]
    refine ⟨cs.length, none, none, ?_, ?_, rfl⟩
    · rw [mem_matchAll_plus, List.drop_zero]
      exact ⟨rfl, by omega, by omega⟩
    · rw [mem_matchAll_cat]
      refine ⟨cs.length, none, none, ?_, ?_, rfl⟩
      · rw [mem_matchAll_opt]; exact Or.inr ⟨rfl, rfl⟩
      · rw [mem_matchAll_cat]
        refine ⟨cs.length, none, none, ?_, ?_, rfl⟩
        · rw [mem_matchAll_dollar]; exact ⟨Or.inl rfl, rfl, rfl⟩
        · rw [mem_matchAll_eps]; exact ⟨rfl, rfl⟩
  · have hrd : (cs.drop (cs.takeWhile Char.isDigit).length).drop 1
        = cs.drop ((cs.takeWhile Char.isDigit).length + 1) := by
      rw [List.drop_drop]
    have hcsk : cs[(cs.takeWhile Char.isDigit).length]? = some '.' := by
      cases hr : cs.drop (cs.takeWhile Char.isDigit).length with
      | nil => rw [hr] at hhead; simp at hhead
      | cons a t =>
        rw [hr] at hhead
        simp only [List.head?_cons, Option.some.injEq] at hhead
        subst hhead
        have h0 : (cs.drop (cs.takeWhile Char.isDigit).length)[0]? = some '.' := by
          rw [hr]; simp
        rw [List.getElem?_drop] at h0
        simpa using h0
    obtain ⟨hklt, -⟩ := List.getElem?_eq_some.mp hcsk
    rw [hrd] at hbne hall
    have hbspos : 0 < (cs.drop ((cs.takeWhile Char.isDigit).length + 1)).length :=
      List.length_pos.mpr hbne
    have hbslen : (cs.drop ((cs.takeWhile Char.isDigit).length + 1)).length
        = cs.length - ((cs.takeWhile Char.isDigit).length + 1) := List.length_drop _ _
    have hk2 : ((cs.drop ((cs.takeWhile Char.isDigit).length + 1)).takeWhile
        Char.isDigit).length
        = (cs.drop ((cs.takeWhile Char.isDigit).length + 1)).length :=
      takeWhile_length_of_all hall
    refine ⟨cs.length, none, ?_⟩
    rw [hdef, mem_matchAll_cat]
    refine ⟨(cs.takeWhile Char.isDigit).length, none, none, ?_, ?_, rfl⟩
    · rw [mem_matchAll_plus, List.drop_zero]
      exact ⟨rfl, by omega, by omega⟩
    · rw [mem_matchAll_cat]
      refine ⟨cs.length, none, none, ?_, ?_, rfl⟩
      · rw [mem_matchAll_opt]; left
        rw [mem_matchAll_cat]
        refine ⟨(cs.takeWhile Char.isDigit).length + 1, none, none, ?_, ?_, rfl⟩
        · rw [mem_matchAll_ch]; exact ⟨hcsk, rfl, rfl⟩
        · rw [mem_matchAll_cat]
          refine ⟨cs.length, none, none, ?_, ?_, rfl⟩
          · rw [mem_matchAll_plus]
            refine ⟨rfl, by omega, ?_⟩
            rw [hk2, hbslen]
            omega
          · rw [mem_matchAll_eps]; exact ⟨rfl, rfl⟩
      · rw [mem_matchAll_cat]
        refine ⟨cs.length, none, none, ?_, ?_, rfl⟩
        · rw [mem_matchAll_dollar]; exact ⟨Or.inl rfl, rfl, rfl⟩
        · rw [mem_matchAll_eps]; exact ⟨rfl, rfl⟩

/-- The last character of a stripped string is never whitespace. -/
theorem pyStrip_getLast_not_space (cs : List Char) :
    ∀ c, (pyStrip cs).getLast? = some c → pyIsSpace c = false := by
  intro c h
  rw [pyStrip, List.getLast?_reverse] at h
  exact head?_dropWhile_not h

/-- On stripped candidates, the source's `re.match(r'^\d+(?:\.\d+)?$', …)`
test succeeds exactly on purely decimal strings. -/
theorem decimal_match_iff (cs : List Char) :
    (matchAt decimalRE (pyStrip cs) 0).isSome = isDecimalLiteral (pyStrip cs) := by
  have hlast := pyStrip_getLast_not_space cs
  cases hdec : isDecimalLiteral (pyStrip cs) with
  | true =>
    obtain ⟨e, g, hmem⟩ := decimal_backward hdec
    rw [matchAt]
    cases hma : matchAll decimalRE (pyStrip cs) 0 with
    | nil => rw [hma] at hmem; exact absurd hmem (by simp)
    | cons a t => simp
  | false =>
    rw [matchAt]
    cases hma : matchAll decimalRE (pyStrip cs) 0 with
    | nil => simp
    | cons a t =>
      exfalso
      obtain ⟨e0, g0⟩ := a
      have hmem : (e0, g0) ∈ matchAll decimalRE (pyStrip cs) 0 := by
        rw [hma]; exact List.mem_cons_self _ _
      have h9 := decimal_forward hlast hmem
      rw [hdec] at h9
      exact Bool.false_ne_true h9

theorem filterMap_ite {α β : Type} (l : List α) (pred : α → Bool) (f : α → β) :
    (l.filterMap fun m => if pred m then none else some (f m))
      = (l.filter fun m => !pred m).map f := by
  induction l with
  | nil => rfl
  | cons a t ih =>
    by_cases hp : pred a = true <;>
      simp [List.filterMap_cons, List.filter_cons, hp, ih]

/-- C8: in the inline pass a candidate between single `$` delimiters is
discarded if and only if its stripped content is purely a decimal number
(digits, optionally dot digits): the source's anchored regex test agrees
with that description on every stripped candidate, the equation list is
the display pass followed by exactly the non-decimal inline candidates,
`"Cost is $5"` yields no equations, and `"Let $\alpha$ denote..."` yields
exactly one with latex `"\alpha"`. -/
theorem claim_C8 :
    (∀ cs : List Char,
        (matchAt decimalRE (pyStrip cs) 0).isSome = isDecimalLiteral (pyStrip cs))
  ∧ (∀ (pageCount : Nat) (text : String),
        extract_equations pageCount text
          = ((finditer displayRE text.data).map (mkEquation pageCount text.data))
            ++ (((finditer inlineRE text.data).filter fun m =>
                  !isDecimalLiteral (pyStrip (groupSlice text.data m.2.2))).map
                (mkEquation pageCount text.data)))
  ∧ extract_equations 1 "Cost is $5" = []
  ∧ (extract_equations 1 "Let $\\alpha$ denote...").map Equation.latex = ["\\alpha"] := by
  refine ⟨decimal_match_iff, ?_, by decide, by decide⟩
  intro pageCount text
  simp only [extract_equations]
  congr 1
  rw [filterMap_ite]
  congr 1
  exact List.filter_congr fun m _ => by rw [decimal_match_iff]

/-- C7 counterexample: on `"Use $$x=y$$ here"` the code yields three
equations (the display match plus two empty inline matches from the `$$`
delimiter pairs), not exactly one as claimed. -/
theorem claim_C7_counterexample :
    (extract_equations 1 sampleEquationText).length ≠ 1 := by decide

/-- C7 (amended): `extract_equations` on `"Use $$x=y$$ here"` yields
exactly three equations: the display equation with latex `"x=y"` first,
then two inline-pass equations with empty latex, because each `$$`
delimiter pair also matches the inline pattern with empty content. -/
theorem claim_C7 :
    (extract_equations 1 sampleEquationText).map Equation.latex = ["x=y", "", ""] := by
  decide

/-! ## Capture spans of the citation patterns -/

theorem finditerAux_mem {r : RE} {cs : List Char} :
    ∀ {fuel i s e : Nat} {g : Option (Nat × Nat)},
      (s, e, g) ∈ finditerAux r cs fuel i → (e, g) ∈ matchAll r cs s := by
  intro fuel
  induction fuel with
  | zero => intro i s e g h; simp [finditerAux] at h
  | succ fuel ih =>
    intro i s e g h
    rw [finditerAux] at h
    split at h
    · simp at h
    · cases hma : matchAt r cs i with
      | some eg =>
        obtain ⟨e1, g1⟩ := eg
        simp only [hma] at h
        rcases List.mem_cons.mp h with heq | htail
        · have hs := congrArg (fun t => t.1) heq
          have he := congrArg (fun t => t.2.1) heq
          have hg := congrArg (fun t => t.2.2) heq
          simp only at hs he hg
          subst hs he hg
          rw [matchAt] at hma
          exact List.mem_of_mem_head? (Option.mem_def.mpr hma)
        · exact ih htail
      | none =>
        simp only [hma] at h
        exact ih h

theorem finditer_mem {r : RE} {cs : List Char} {s e : Nat} {g : Option (Nat × Nat)}
    (h : (s, e, g) ∈ finditer r cs) : (e, g) ∈ matchAll r cs s :=
  finditerAux_mem h

/-- A match of a `[ (group) ]` shaped pattern captures exactly the span
strictly inside the brackets. -/
theorem mem_matchAll_bracket {inner : RE} {cs : List Char} {s e : Nat}
    {g : Option (Nat × Nat)}
    (h : (e, g) ∈ matchAll
        (RE.cat (RE.ch '[') (RE.cat (RE.grp inner) (RE.cat (RE.ch ']') RE.eps))) cs s) :
    g = some (s + 1, e - 1) ∧ s + 2 ≤ e ∧
    cs[s]? = some '[' ∧ cs[e - 1]? = some ']' := by
  rw [mem_matchAll_cat] at h
  obtain ⟨e1, g1, g2, h1, h2, hg⟩ := h
  rw [mem_matchAll_ch] at h1
  obtain ⟨hs, he1, hg1⟩ := h1
  subst he1 hg1
  rw [mem_matchAll_cat] at h2
  obtain ⟨e2, g2a, g2b, h2a, h2b, hg2⟩ := h2
  rw [mem_matchAll_grp] at h2a
  obtain ⟨⟨gin, hin⟩, hg2a⟩ := h2a
  have hle : s + 1 ≤ e2 := le_of_mem_matchAll hin
  rw [mem_matchAll_cat] at h2b
  obtain ⟨e3, g3a, g3b, h3a, h3b, -⟩ := h2b
  rw [mem_matchAll_ch] at h3a
  obtain ⟨hbr, he3, -⟩ := h3a
  rw [mem_matchAll_eps] at h3b
  obtain ⟨he, -⟩ := h3b
  subst he3 hg2a
  subst he
  have hgv : g = some (s + 1, e2) := by
    rw [hg, hg2]
    rfl
  refine ⟨?_, by omega, hs, ?_⟩
  · rw [hgv, show e2 + 1 - 1 = e2 from by omega]
  · rw [show e2 + 1 - 1 = e2 from by omega]
    exact hbr

/-- Slicing a bracketed match: the full matched span is the open bracket,
the captured inside, and the close bracket. -/
theorem pySlice_bracket {cs : List Char} {s e2 : Nat}
    (hs : cs[s]? = some '[') (he : cs[e2]? = some ']') (hle : s + 1 ≤ e2) :
    pySlice cs s (e2 + 1) = '[' :: (pySlice cs (s + 1) e2 ++ [']']) := by
  obtain ⟨hslt, hsval⟩ := List.getElem?_eq_some.mp hs
  rw [pySlice, List.drop_eq_getElem_cons hslt, hsval]
  rw [show e2 + 1 - s = (e2 - s) + 1 from by omega, List.take_succ_cons]
  congr 1
  rw [pySlice]
  rw [show e2 - s = (e2 - (s + 1)) + 1 from by omega, List.take_succ]
  congr 1
  rw [List.getElem?_drop]
  rw [show s + 1 + (e2 - (s + 1)) = e2 from by omega, he]
  rfl

/-- C9: citation texts are, for every author-year match, the matched span
without the enclosing brackets (`text[s+1 : e-1]`), and for every numeric
match, the full matched span including the brackets (`text[s : e]`);
`"[Smith, 2020]"` yields text `"Smith, 2020"` and `"[12]"` yields
`"[12]"`. -/
theorem claim_C9 :
    (∀ (pageCount : Nat) (text : String),
        (extract_citations pageCount text).map Citation.text
          = ((finditer authorYearRE text.data).map fun m =>
                String.mk (pySlice text.data (m.1 + 1) (m.2.1 - 1)))
            ++ ((finditer numericRE text.data).map fun m =>
                String.mk (pySlice text.data m.1 m.2.1)))
  ∧ (extract_citations 1 "see [Smith, 2020] here").map Citation.text = ["Smith, 2020"]
  ∧ (extract_citations 1 "see [12] here").map Citation.text = ["[12]"] := by
  refine ⟨?_, by decide, by decide⟩
  intro pageCount text
  simp only [extract_citations]
  rw [List.map_append, List.map_map, List.map_map]
  congr 1
  · apply List.map_congr_left
    rintro ⟨s, e, g⟩ hm
    have h1 := finditer_mem hm
    have h2 := mem_matchAll_bracket h1
    obtain ⟨hg, hgap, hs, he⟩ := h2
    simp [Function.comp, hg, groupSlice]
  · apply List.map_congr_left
    rintro ⟨s, e, g⟩ hm
    have h1 := finditer_mem hm
    have h2 := mem_matchAll_bracket h1
    obtain ⟨hg, hgap, hs, he⟩ := h2
    have h3 : pySlice text.data s e
        = '[' :: (pySlice text.data (s + 1) (e - 1) ++ [']']) := by
      have h4 := pySlice_bracket hs he (by omega)
      rw [show e - 1 + 1 = e from by omega] at h4
      exact h4
    simp only [Function.comp]
    apply String.ext
    simp [String.data_append, hg, groupSlice, h3]

/-- C10: with `extract_figures = True` but `output_dir = None`, `process`
silently skips figure extraction: whenever it returns, the figures list is
empty, no directory is created and no file is written; and whether it
raises at all does not depend on `output_dir` (its only internal failure
is the title fallback's `IndexError` on a zero-page document, which is
independent of the output directory). -/
theorem claim_C10 :
    ∀ (cfg : Config) (doc : Document), cfg.extract_figures = true →
      (∀ (content : PDFContent) (log : FSLog),
          process cfg none doc = .ok (content, log) →
          content.figures = [] ∧ log.dirsCreated = [] ∧ log.filesWritten = [])
    ∧ (∀ od : String, (process cfg (some od) doc).isOk = (process cfg none doc).isOk) := by
  intro cfg doc _
  constructor
  · intro content log h
    simp only [process] at h
    cases ht : extract_title doc with
    | error e => rw [ht] at h; exact absurd h (by simp)
    | ok title =>
      rw [ht] at h
      injection h with h'
      injection h' with h1 h2
      subst h1 h2
      exact ⟨rfl, rfl, rfl⟩
  · intro od
    simp only [process]
    cases ht : extract_title doc with
    | error e => rfl
    | ok title => rfl

/-- Witness for C10: a one-page document processed with the default
configuration and no output directory. -/
theorem claim_C10_witness :
    demoConfig.extract_figures = true
  ∧ (∀ (content : PDFContent) (log : FSLog),
        process demoConfig none demoDoc = .ok (content, log) →
        content.figures = [] ∧ log.dirsCreated = [] ∧ log.filesWritten = []) :=
  ⟨rfl, (claim_C10 demoConfig demoDoc rfl).1⟩

end Hedorah
